import Mathlib

/- Verification of the binary-buffer layer (Reader, Writer, Template) and the
merkle-tree layer (MerkleTree) of the blockchain.ts library. Bytes are
modelled as natural numbers below 256 and byte buffers as lists of naturals;
JS numbers that may be negative are modelled as integers. Out-of-range typed
array reads (which yield undefined in JS) are modelled with Option, and
DataView accesses that raise RangeError are modelled as Option results. -/

namespace BlockchainAZ

/-- Cursor-based buffer reader, embedding src/buffer/Reader.ts. `buffer` is
the byte list, `size` caches its byte length, `offset` is the cursor (after
construction it is always nonnegative, hence a Nat). -/
structure Reader where
  buffer : List Nat
  size : Nat
  offset : Nat
deriving Repr, DecidableEq

/-- Reader construction: stores the buffer and its length, and silently
resets an out-of-range starting offset (negative, or at least the buffer
length) to 0. -/
def Reader.new (buffer : List Nat) (offset : Int) : Reader :=
  { buffer := buffer
    size := buffer.length
    offset := if offset < 0 ∨ (buffer.length : Int) ≤ offset then 0 else offset.toNat }

/-- readUint8: value of the byte at the cursor (none when out of range,
modelling the undefined result of an out-of-range index), cursor advances
by 1. -/
def Reader.readUint8 (r : Reader) : Option Nat × Reader :=
  (r.buffer[r.offset]?, { r with offset := r.offset + 1 })

/-- readUint16: little-endian 2-byte read through the DataView; none models
the RangeError raised on an out-of-range access. -/
def Reader.readUint16 (r : Reader) : Option (Nat × Reader) :=
  if r.offset + 2 ≤ r.size then
    some (r.buffer.getD r.offset 0 + 256 * r.buffer.getD (r.offset + 1) 0,
          { r with offset := r.offset + 2 })
  else none

/-- readUint32: little-endian 4-byte read through the DataView. -/
def Reader.readUint32 (r : Reader) : Option (Nat × Reader) :=
  if r.offset + 4 ≤ r.size then
    some (r.buffer.getD r.offset 0 + 256 * r.buffer.getD (r.offset + 1) 0 +
            256 ^ 2 * r.buffer.getD (r.offset + 2) 0 +
            256 ^ 3 * r.buffer.getD (r.offset + 3) 0,
          { r with offset := r.offset + 4 })
  else none

/-- readUint64: little-endian 8-byte read through the DataView (a bigint in
  the source, an unbounded Nat here). -/
def Reader.readUint64 (r : Reader) : Option (Nat × Reader) :=
  if r.offset + 8 ≤ r.size then
    some (r.buffer.getD r.offset 0 + 256 * r.buffer.getD (r.offset + 1) 0 +
            256 ^ 2 * r.buffer.getD (r.offset + 2) 0 +
            256 ^ 3 * r.buffer.getD (r.offset + 3) 0 +
            256 ^ 4 * r.buffer.getD (r.offset + 4) 0 +
            256 ^ 5 * r.buffer.getD (r.offset + 5) 0 +
            256 ^ 6 * r.buffer.getD (r.offset + 6) 0 +
            256 ^ 7 * r.buffer.getD (r.offset + 7) 0,
          { r with offset := r.offset + 8 })
  else none

/-- Uint8Array.subarray(a, b): both endpoints are clamped to the buffer
length, never raising an error. -/
def subarray (buf : List Nat) (a b : Nat) : List Nat := (buf.take b).drop a

/-- readBuffer: advances the cursor by `size` first, then returns the
subarray between the previous and the new cursor. -/
def Reader.readBuffer (r : Reader) (size : Nat) : List Nat × Reader :=
  let o := r.offset + size
  (subarray r.buffer (o - size) o, { r with offset := o })

/-- Cursor-based buffer writer, embedding src/buffer/Writer.ts. The offset is
an integer: the constructor performs no clamping, so the stored cursor can be
negative or beyond the end. -/
structure Writer where
  buffer : List Nat
  size : Nat
  offset : Int
deriving Repr, DecidableEq

/-- Writer construction stores the buffer, its length, and the offset exactly
as given: there is no out-of-range correction in the source. -/
def Writer.new (buffer : List Nat) (offset : Int) : Writer :=
  { buffer := buffer, size := buffer.length, offset := offset }

/-- writeUint8: typed-array store. An out-of-range index (negative or beyond
the end) is silently ignored, the stored value is reduced modulo 256, and the
cursor advances by 1 regardless. -/
def Writer.writeUint8 (w : Writer) (v : Int) : Writer :=
  { w with
    buffer :=
      if 0 ≤ w.offset then w.buffer.set w.offset.toNat (v % 256).toNat else w.buffer
    offset := w.offset + 1 }

/-- Byte-by-byte store of a block of bytes at consecutive indices, used to
model the multi-byte little-endian DataView stores. -/
def setBytes : List Nat → Nat → List Nat → List Nat
  | l, _, [] => l
  | l, o, b :: bs => setBytes (l.set o b) (o + 1) bs

/-- writeUint16: little-endian 2-byte DataView store; none models the
RangeError on an out-of-range offset. The value is reduced modulo 2^16. -/
def Writer.writeUint16 (w : Writer) (v : Int) : Option Writer :=
  if 0 ≤ w.offset ∧ w.offset + 2 ≤ (w.size : Int) then
    some { w with
           buffer :=
             setBytes w.buffer w.offset.toNat
               [(v % 65536).toNat % 256, (v % 65536).toNat / 256 % 256]
           offset := w.offset + 2 }
  else none

/-- writeUint32: little-endian 4-byte DataView store, value modulo 2^32. -/
def Writer.writeUint32 (w : Writer) (v : Int) : Option Writer :=
  if 0 ≤ w.offset ∧ w.offset + 4 ≤ (w.size : Int) then
    some { w with
           buffer :=
             setBytes w.buffer w.offset.toNat
               [(v % 4294967296).toNat % 256,
                (v % 4294967296).toNat / 256 % 256,
                (v % 4294967296).toNat / 256 ^ 2 % 256,
                (v % 4294967296).toNat / 256 ^ 3 % 256]
           offset := w.offset + 4 }
  else none

/-- writeUint64: little-endian 8-byte DataView store, value modulo 2^64. -/
def Writer.writeUint64 (w : Writer) (v : Int) : Option Writer :=
  if 0 ≤ w.offset ∧ w.offset + 8 ≤ (w.size : Int) then
    some { w with
           buffer :=
             setBytes w.buffer w.offset.toNat
               [(v % 18446744073709551616).toNat % 256,
                (v % 18446744073709551616).toNat / 256 % 256,
                (v % 18446744073709551616).toNat / 256 ^ 2 % 256,
                (v % 18446744073709551616).toNat / 256 ^ 3 % 256,
                (v % 18446744073709551616).toNat / 256 ^ 4 % 256,
                (v % 18446744073709551616).toNat / 256 ^ 5 % 256,
                (v % 18446744073709551616).toNat / 256 ^ 6 % 256,
                (v % 18446744073709551616).toNat / 256 ^ 7 % 256]
           offset := w.offset + 8 }
  else none

/-- writeBuffer: byte-by-byte copy of buf, starting at position index of buf,
through repeated writeUint8 calls. -/
def Writer.writeBuffer (w : Writer) (buf : List Nat) (index : Nat) : Writer :=
  (buf.drop index).foldl (fun acc b => acc.writeUint8 (Int.ofNat b)) w

/-- Taking up to an index is the same as taking up to that index clamped by
the length. -/
theorem take_min_length {α : Type} (l : List α) (k : Nat) :
    l.take k = l.take (min k l.length) := by
  rcases Nat.le_total k l.length with h | h
  · rw [Nat.min_eq_left h]
  · rw [Nat.min_eq_right h, List.take_of_length_le h, List.take_length]

/-- C4 counterexample: the claim says the Writer constructor also resets an
out-of-range initial offset to 0, but a Writer built over a 1-byte buffer
with offset 5 keeps offset 5. -/
theorem writer_does_not_clamp_offset :
    (Writer.new [0] 5).offset = 5 ∧ ¬(Writer.new [0] 5).offset = 0 := by decide

/-- C4 (amended): only the Reader silently resets a negative or too-large
initial offset to 0 and keeps in-range offsets unchanged; the Writer stores
the given offset unchanged, whatever it is, and raises no error. -/
theorem cursor_construction_offsets (buf : List Nat) (o : Int) :
    ((o < 0 ∨ (buf.length : Int) ≤ o) → (Reader.new buf o).offset = 0) ∧
    (0 ≤ o → o < (buf.length : Int) → ((Reader.new buf o).offset : Int) = o) ∧
    (Writer.new buf o).offset = o := by
  refine ⟨fun h => ?_, fun h1 h2 => ?_, rfl⟩
  · simp only [Reader.new]
    rw [if_pos h]
  · simp only [Reader.new]
    rw [if_neg (by omega)]
    omega

/-- Witness for the amended C4 theorem at concrete inputs. -/
theorem cursor_construction_offsets_witness :
    (Reader.new [7] 9).offset = 0 ∧ ((Reader.new [7, 8] 1).offset : Int) = 1 ∧
      (Writer.new [7] 9).offset = 9 :=
  ⟨(cursor_construction_offsets [7] 9).1 (by decide),
   (cursor_construction_offsets [7, 8] 1).2.1 (by decide) (by decide),
   (cursor_construction_offsets [7] 9).2.2⟩

/-- C10: readBuffer never fails: it returns the bytes of the underlying
buffer from the cursor position up to min(cursor + n, buffer length) — which
holds fewer than n bytes whenever the request overruns the end — and always
advances the cursor by exactly n, so the stored offset can end up greater
than the buffer length. -/
theorem readBuffer_clamps_and_advances (r : Reader) (n : Nat) :
    (r.readBuffer n).1 =
      (r.buffer.take (min (r.offset + n) r.buffer.length)).drop r.offset ∧
    (r.readBuffer n).1.length = min n (r.buffer.length - r.offset) ∧
    (r.readBuffer n).2.offset = r.offset + n := by
  refine ⟨?_, ?_, rfl⟩
  · simp only [Reader.readBuffer, subarray, Nat.add_sub_cancel]
    rw [← take_min_length]
  · simp only [Reader.readBuffer, subarray, Nat.add_sub_cancel,
      List.length_drop, List.length_take]
    omega

/-- One run of the inner for-loop of MerkleTree.computeMerkleRoot, scanning
i from the start value down while i > 1 in steps of 2: concatenate the
hashes at i-2 and i-1, store the hash of the concatenation at i-2, and pop
the list's last element. Hashes are byte lists; an out-of-range index reads
the empty list (never reached from the loop's start value). -/
def mergePass (f : List Nat → List Nat) : Nat → List (List Nat) → List (List Nat)
  | 0, hashes => hashes
  | 1, hashes => hashes
  | i + 2, hashes =>
      mergePass f i
        ((hashes.set i (f (hashes.getD i [] ++ hashes.getD (i + 1) []))).dropLast)

/-- The while-loop of computeMerkleRoot: run full passes until at most one
hash remains. Each pass strictly shrinks a list of two or more hashes, so a
fuel of the list length is more than enough (`reduceAll_length_le_one`). -/
def reduceAll (f : List Nat → List Nat) : Nat → List (List Nat) → List (List Nat)
  | 0, hashes => hashes
  | fuel + 1, hashes =>
      if 1 < hashes.length then reduceAll f fuel (mergePass f hashes.length hashes)
      else hashes

/-- The odd-count padding of computeMerkleRoot: when the number of hashes is
odd, the last hash is pushed again onto the caller-visible list. -/
def padHashes (hashes : List (List Nat)) : List (List Nat) :=
  if hashes.length % 2 ≠ 0 then hashes ++ [hashes.getD (hashes.length - 1) []]
  else hashes

/-- computeMerkleRoot: pad to an even count (mutating the stored list, first
component of the result), then reduce a copy of the padded list and return
its remaining first entry. -/
def computeMerkleRoot (f : List Nat → List Nat) (hashes : List (List Nat)) :
    List Nat × List (List Nat) :=
  let padded := padHashes hashes
  ((reduceAll f padded.length padded).getD 0 [], padded)

/-- MerkleTree instance state: the caller-visible list of leaf hashes, the
injected hash function, the hash size, and the cached root (none models the
undefined field before the constructor assigns it). -/
structure MerkleTree where
  hashes : List (List Nat)
  hashFunction : List Nat → List Nat
  hashSize : Nat
  merkleRoot : Option (List Nat)

/-- getRoot: an empty hash list yields a fresh zero-filled hashSize-byte
buffer (checked before the cache); otherwise the cached root is returned if
present; otherwise the root is computed, which pads the stored list. The
second component is the instance state after the call. -/
def MerkleTree.getRoot (t : MerkleTree) : List Nat × MerkleTree :=
  if t.hashes.length = 0 then (List.replicate t.hashSize 0, t)
  else
    match t.merkleRoot with
    | some r => (r, t)
    | none =>
        let rootAndHashes := computeMerkleRoot t.hashFunction t.hashes
        (rootAndHashes.1, { t with hashes := rootAndHashes.2 })

/-- MerkleTree constructor: builds the state with an undefined root, calls
getRoot (which computes the root and possibly pads the list), and stores the
result in merkleRoot. -/
def MerkleTree.new (hashes : List (List Nat)) (f : List Nat → List Nat)
    (hashSize : Nat) : MerkleTree :=
  let t0 : MerkleTree :=
    { hashes := hashes, hashFunction := f, hashSize := hashSize, merkleRoot := none }
  let rootAndState := t0.getRoot
  { rootAndState.2 with merkleRoot := some rootAndState.1 }

/-- Reading below the length of the left part of an append stays in the left
part. -/
theorem getD_append_lt {α : Type} (l₁ l₂ : List α) (i : Nat) (d : α)
    (h : i < l₁.length) : (l₁ ++ l₂).getD i d = l₁.getD i d := by
  simp [List.getD_eq_getElem?_getD, List.getElem?_append, h]

/-- Reading below the cut of a take reads the original list. -/
theorem getD_take_lt {α : Type} (l : List α) (n i : Nat) (d : α) (h : i < n) :
    (l.take n).getD i d = l.getD i d := by
  simp [List.getD_eq_getElem?_getD, List.getElem?_take, h]

/-- Extending a take by one position appends the element there. -/
theorem take_succ_getD {α : Type} (l : List α) (n : Nat) (d : α)
    (h : n < l.length) : l.take (n + 1) = l.take n ++ [l.getD n d] := by
  rw [List.take_succ, List.getElem?_eq_getElem h]
  simp [List.getD_eq_getElem?_getD, List.getElem?_eq_getElem h]

/-- Setting the position right after a left part replaces the head of the
right part. -/
theorem set_append_length {α : Type} (l₁ l₂ : List α) (x y : α) :
    (l₁ ++ x :: l₂).set l₁.length y = l₁ ++ y :: l₂ := by
  rw [List.set_append]
  simp

/-- The node at position j of one full reduction pass over an even-count
list: an even position holds the hash of the pair at j, j+1, an odd position
holds the untouched original hash at j. -/
def passNode (f : List Nat → List Nat) (hs : List (List Nat)) (j : Nat) : List Nat :=
  if j % 2 = 0 then f (hs.getD j [] ++ hs.getD (j + 1) []) else hs.getD j []

/-- Loop invariant of the inner for-loop: with the first 2*j positions still
untouched and the processed tail described by passNode, running the loop
from counter 2*j yields the full passNode description. -/
theorem mergePass_inv (f : List Nat → List Nat) (hs : List (List Nat)) (m : Nat)
    (hm : hs.length = 2 * m) :
    ∀ j, j ≤ m →
      mergePass f (2 * j)
          (hs.take (2 * j) ++ (List.range' (2 * j) (m - j)).map (passNode f hs)) =
        (List.range m).map (passNode f hs) := by
  intro j
  induction j with
  | zero =>
      intro _
      simp [mergePass, List.range_eq_range']
  | succ j ih =>
      intro hjm
      have hlen : 2 * j + 2 ≤ hs.length := by omega
      have e2 : 2 * (j + 1) = 2 * j + 2 := by ring
      rw [e2]
      have hA : (hs.take (2 * j)).length = 2 * j := by
        rw [List.length_take]; omega
      -- the two hashes read by this loop step
      have ha : 2 * j < hs.length := by omega
      have hb : 2 * j + 1 < hs.length := by omega
      have t2 : hs.take (2 * j + 2) =
          hs.take (2 * j) ++ [hs.getD (2 * j) [], hs.getD (2 * j + 1) []] := by
        rw [take_succ_getD hs (2 * j + 1) [] hb, take_succ_getD hs (2 * j) [] (by omega)]
        simp
      simp only [mergePass]
      have hread0 :
          ((hs.take (2 * j + 2) ++
              (List.range' (2 * j + 2) (m - (j + 1))).map (passNode f hs)).getD
            (2 * j) []) = hs.getD (2 * j) [] := by
        rw [getD_append_lt _ _ _ _ (by rw [List.length_take]; omega),
          getD_take_lt _ _ _ _ (by omega)]
      have hread1 :
          ((hs.take (2 * j + 2) ++
              (List.range' (2 * j + 2) (m - (j + 1))).map (passNode f hs)).getD
            (2 * j + 1) []) = hs.getD (2 * j + 1) [] := by
        rw [getD_append_lt _ _ _ _ (by rw [List.length_take]; omega),
          getD_take_lt _ _ _ _ (by omega)]
      rw [hread0, hread1]
      have hg : f (hs.getD (2 * j) [] ++ hs.getD (2 * j + 1) []) = passNode f hs (2 * j) := by
        have : 2 * j % 2 = 0 := by omega
        simp [passNode, this]
      rw [hg, t2]
      have hset :
          ((hs.take (2 * j) ++ [hs.getD (2 * j) [], hs.getD (2 * j + 1) []] ++
              (List.range' (2 * j + 2) (m - (j + 1))).map (passNode f hs)).set
            (2 * j) (passNode f hs (2 * j))) =
          hs.take (2 * j) ++ passNode f hs (2 * j) :: hs.getD (2 * j + 1) [] ::
            (List.range' (2 * j + 2) (m - (j + 1))).map (passNode f hs) := by
        rw [List.append_assoc]
        have := set_append_length (hs.take (2 * j))
          (hs.getD (2 * j + 1) [] ::
            (List.range' (2 * j + 2) (m - (j + 1))).map (passNode f hs))
          (hs.getD (2 * j) []) (passNode f hs (2 * j))
        rw [hA] at this
        simpa using this
      rw [hset]
      have hodd : hs.getD (2 * j + 1) [] = passNode f hs (2 * j + 1) := by
        have : (2 * j + 1) % 2 = 1 := by omega
        simp [passNode, this]
      rcases Nat.eq_zero_or_eq_succ_pred (m - (j + 1)) with hz | hsucc
      · -- last loop iteration: the processed tail was empty
        rw [hz]
        have hm1 : m - j = 1 := by omega
        have hdrop :
            (hs.take (2 * j) ++ [passNode f hs (2 * j), hs.getD (2 * j + 1) []]).dropLast =
            hs.take (2 * j) ++ [passNode f hs (2 * j)] := by
          rw [show hs.take (2 * j) ++ [passNode f hs (2 * j), hs.getD (2 * j + 1) []] =
              (hs.take (2 * j) ++ [passNode f hs (2 * j)]) ++ [hs.getD (2 * j + 1) []] by simp,
            List.dropLast_concat]
        simpa [hdrop, hm1] using ih (by omega)
      · -- further iterations remain: the pop removes the processed tail's last node
        set t := (m - (j + 1)) - 1 with ht
        have htm : m - (j + 1) = t + 1 := by omega
        rw [htm]
        have hconcat : (List.range' (2 * j + 2) (t + 1)).map (passNode f hs) =
            (List.range' (2 * j + 2) t).map (passNode f hs) ++
              [passNode f hs (2 * j + 2 + t)] := by
          rw [List.range'_concat]
          simp
        have hdrop :
            (hs.take (2 * j) ++ passNode f hs (2 * j) :: hs.getD (2 * j + 1) [] ::
              (List.range' (2 * j + 2) (t + 1)).map (passNode f hs)).dropLast =
            hs.take (2 * j) ++ passNode f hs (2 * j) :: hs.getD (2 * j + 1) [] ::
              (List.range' (2 * j + 2) t).map (passNode f hs) := by
          rw [hconcat,
            show hs.take (2 * j) ++ passNode f hs (2 * j) :: hs.getD (2 * j + 1) [] ::
                ((List.range' (2 * j + 2) t).map (passNode f hs) ++
                  [passNode f hs (2 * j + 2 + t)]) =
              (hs.take (2 * j) ++ passNode f hs (2 * j) :: hs.getD (2 * j + 1) [] ::
                (List.range' (2 * j + 2) t).map (passNode f hs)) ++
                [passNode f hs (2 * j + 2 + t)] by simp,
            List.dropLast_concat]
        rw [hdrop]
        have hrange : List.range' (2 * j) (m - j) =
            (2 * j) :: (2 * j + 1) :: List.range' (2 * j + 2) t := by
          have hmj : m - j = t + 2 := by omega
          rw [hmj, List.range'_succ, List.range'_succ]
        have := ih (by omega)
        rw [hrange] at this
        rw [hodd]
        simpa using this

/-- C1 counterexample: on the even-length leaf list [[0],[1],[2],[3]] with
the identity as hash function, one full pass yields [[0,1],[1]] — the pop of
the second iteration removes the parent formed in the first — and not the
left-to-right pairing [[0,1],[2,3]] the claim describes. -/
theorem mergePass_not_left_to_right_pairs :
    mergePass (fun l => l) 4 [[0], [1], [2], [3]] ≠ [[0, 1], [2, 3]] := by decide

/-- C1 (amended): one full reduction pass over an even count N of leaf
hashes yields exactly N/2 entries, but they are not the left-to-right parent
pairs: position j holds the parent hash of the pair at j, j+1 when j is
even, and the untouched original hash at j when j is odd. -/
theorem mergePass_even_characterization (f : List Nat → List Nat)
    (hs : List (List Nat)) (m : Nat) (hm : hs.length = 2 * m) :
    mergePass f hs.length hs = (List.range m).map (passNode f hs) ∧
    (mergePass f hs.length hs).length = m := by
  have main := mergePass_inv f hs m hm m (le_refl m)
  rw [Nat.sub_self] at main
  simp only [List.range'_zero, List.map_nil, List.append_nil] at main
  rw [← hm, List.take_length] at main
  exact ⟨main, by rw [main]; simp⟩

/-- Witness for the amended C1 theorem: the pass over [[0],[1],[2],[3]]
produces the two entries [[0,1],[1]]. -/
theorem mergePass_even_characterization_witness :
    mergePass (fun l => l) 4 [[0], [1], [2], [3]] = [[0, 1], [1]] ∧
    (mergePass (fun l => l) 4 [[0], [1], [2], [3]]).length = 2 := by
  have h := mergePass_even_characterization (fun l => l) [[0], [1], [2], [3]] 2 (by decide)
  exact ⟨h.1.trans (by decide), h.2⟩

/-- Each loop step pops one element, so a full pass from counter k removes
k/2 elements. -/
theorem mergePass_length (f : List Nat → List Nat) :
    ∀ (k : Nat) (l : List (List Nat)), k ≤ l.length →
      (mergePass f k l).length = l.length - k / 2
  | 0, l, _ => by simp [mergePass]
  | 1, l, _ => by simp [mergePass]
  | k + 2, l, h => by
      have hrec := mergePass_length f k
        ((l.set k (f (l.getD k [] ++ l.getD (k + 1) []))).dropLast)
        (by simp [List.length_dropLast, List.length_set]; omega)
      simp only [mergePass]
      rw [hrec]
      simp only [List.length_dropLast, List.length_set]
      omega

/-- A fuel of the list length always suffices for the while-loop: the
returned list has at most one element, so the fuel-based embedding agrees
with the source's unbounded loop. -/
theorem reduceAll_length_le_one (f : List Nat → List Nat) :
    ∀ (fuel : Nat) (l : List (List Nat)), l.length ≤ fuel + 1 →
      (reduceAll f fuel l).length ≤ 1
  | 0, l, h => by
      simp only [reduceAll]
      omega
  | fuel + 1, l, h => by
      simp only [reduceAll]
      by_cases hl : 1 < l.length
      · rw [if_pos hl]
        exact reduceAll_length_le_one f fuel _
          (by rw [mergePass_length f l.length l (le_refl _)]; omega)
      · rw [if_neg hl]
        omega

/-- The constructor stores exactly the padded leaf list. -/
theorem new_hashes (hs : List (List Nat)) (f : List Nat → List Nat) (sz : Nat) :
    (MerkleTree.new hs f sz).hashes = padHashes hs := by
  by_cases h : hs.length = 0
  · have hnil : hs = [] := List.length_eq_zero.mp h
    subst hnil
    simp [MerkleTree.new, MerkleTree.getRoot, padHashes]
  · simp [MerkleTree.new, MerkleTree.getRoot, h, computeMerkleRoot]

/-- Padding yields an even count. -/
theorem padHashes_even (hs : List (List Nat)) : (padHashes hs).length % 2 = 0 := by
  by_cases h : hs.length % 2 = 0
  · simp [padHashes, h]
  · simp only [padHashes, h]
    rw [if_pos (by omega)]
    simp only [List.length_append, List.length_cons, List.length_nil]
    omega

/-- After construction the cached root is always present. -/
theorem new_merkleRoot_isSome (hs : List (List Nat)) (f : List Nat → List Nat)
    (sz : Nat) : (MerkleTree.new hs f sz).merkleRoot.isSome := by
  simp [MerkleTree.new]

/-- C7: construction establishes the even-length invariant on the
caller-visible leaf list: an odd count gets one duplicate of the last leaf
appended, an even count is left unchanged; in particular [A,B,C] becomes
[A,B,C,C]; and getRoot, the only later operation, leaves the instance state
unchanged after construction. -/
theorem merkle_even_invariant (hs : List (List Nat)) (f g : List Nat → List Nat)
    (sz sz2 : Nat) (A B C : List Nat) :
    (MerkleTree.new hs f sz).hashes.length % 2 = 0 ∧
    (hs.length % 2 = 1 →
      (MerkleTree.new hs f sz).hashes = hs ++ [hs.getD (hs.length - 1) []]) ∧
    (hs.length % 2 = 0 → (MerkleTree.new hs f sz).hashes = hs) ∧
    (MerkleTree.new [A, B, C] g sz2).hashes = [A, B, C, C] ∧
    ((MerkleTree.new hs f sz).getRoot).2 = MerkleTree.new hs f sz := by
  refine ⟨?_, fun hodd => ?_, fun heven => ?_, ?_, ?_⟩
  · rw [new_hashes]; exact padHashes_even hs
  · rw [new_hashes]
    simp only [padHashes]
    rw [if_pos (by omega)]
  · rw [new_hashes]
    simp only [padHashes]
    rw [if_neg (by omega)]
  · rw [new_hashes]
    simp [padHashes]
  · have hsome := new_merkleRoot_isSome hs f sz
    rcases hr : (MerkleTree.new hs f sz).merkleRoot with _ | r
    · rw [hr] at hsome; simp at hsome
    · by_cases hlen : (MerkleTree.new hs f sz).hashes.length = 0
      · simp [MerkleTree.getRoot, hlen]
      · simp [MerkleTree.getRoot, hlen, hr]

/-- Witness for C7 at concrete inputs. -/
theorem merkle_even_invariant_witness :
    (MerkleTree.new [[5]] (fun l => l) 2).hashes.length % 2 = 0 ∧
    (MerkleTree.new [[5]] (fun l => l) 2).hashes = [[5], [5]] ∧
    (MerkleTree.new [[5], [6]] (fun l => l) 2).hashes = [[5], [6]] ∧
    (MerkleTree.new [[1], [2], [3]] (fun l => l) 2).hashes = [[1], [2], [3], [3]] ∧
    ((MerkleTree.new [[5]] (fun l => l) 2).getRoot).2 = MerkleTree.new [[5]] (fun l => l) 2 := by
  have h1 := merkle_even_invariant [[5]] (fun l => l) (fun l => l) 2 2 [1] [2] [3]
  have h2 := merkle_even_invariant [[5], [6]] (fun l => l) (fun l => l) 2 2 [1] [2] [3]
  exact ⟨h1.1, (h1.2.1 (by decide)).trans (by decide), h2.2.2.1 (by decide),
    h1.2.2.2.1, h1.2.2.2.2⟩

/-- C8: on an empty leaf list the root is the zero-filled hashSize-byte
buffer, for every hash size and every hash function (the result does not
depend on the hash function, which is therefore never applied). -/
theorem merkle_empty_root (f : List Nat → List Nat) (sz : Nat) :
    ((MerkleTree.new [] f sz).getRoot).1 = List.replicate sz 0 ∧
    (MerkleTree.new [] f sz).merkleRoot = some (List.replicate sz 0) := by
  constructor
  · simp [MerkleTree.new, MerkleTree.getRoot]
  · simp [MerkleTree.new, MerkleTree.getRoot]

/-- C3 counterexample: constructing from [[1],[2]] with a hash function that
always returns [7] caches root [7]; emptying the leaf list between two
getRoot calls makes the second call return the 32 zero bytes instead of the
cached root, so the two calls differ. -/
theorem merkle_getRoot_mutation_breaks_idempotence :
    (({ ((MerkleTree.new [[1], [2]] (fun _ => [7]) 32).getRoot).2 with
          hashes := ([] : List (List Nat)) } : MerkleTree).getRoot).1 ≠
      ((MerkleTree.new [[1], [2]] (fun _ => [7]) 32).getRoot).1 := by decide

/-- C3 (amended): two getRoot calls return the identical value for every
intervening external mutation of the leaf list that leaves it nonempty
(length changes included); only a mutation that empties the list escapes the
cache and yields the zero hash instead. -/
theorem merkle_getRoot_cached (hs : List (List Nat)) (f : List Nat → List Nat)
    (sz : Nat) (m : List (List Nat)) (hm : m ≠ []) :
    (({ ((MerkleTree.new hs f sz).getRoot).2 with hashes := m } : MerkleTree).getRoot).1 =
      ((MerkleTree.new hs f sz).getRoot).1 := by
  have hmlen : m.length ≠ 0 := fun h => hm (List.length_eq_zero.mp h)
  have hstate := (merkle_even_invariant hs f f sz sz [] [] []).2.2.2.2
  by_cases h : hs.length = 0
  · have hnil : hs = [] := List.length_eq_zero.mp h
    subst hnil
    rw [hstate]
    simp [MerkleTree.new, MerkleTree.getRoot, hmlen]
  · rw [hstate]
    have hlen : (MerkleTree.new hs f sz).hashes.length ≠ 0 := by
      rw [new_hashes]
      simp only [padHashes]
      by_cases hpar : hs.length % 2 ≠ 0
      · rw [if_pos hpar]; simp
      · rw [if_neg hpar]; omega
    have hsome := new_merkleRoot_isSome hs f sz
    rcases hr : (MerkleTree.new hs f sz).merkleRoot with _ | r
    · rw [hr] at hsome; simp at hsome
    · simp [MerkleTree.getRoot, hmlen, hlen, hr]

/-- Witness for the amended C3 theorem. -/
theorem merkle_getRoot_cached_witness :
    (({ ((MerkleTree.new [[1], [2]] (fun _ => [7]) 32).getRoot).2 with
          hashes := [[9]] } : MerkleTree).getRoot).1 =
      ((MerkleTree.new [[1], [2]] (fun _ => [7]) 32).getRoot).1 :=
  merkle_getRoot_cached [[1], [2]] (fun _ => [7]) 32 [[9]] (by decide)

/-- An in-range starting offset is kept by the Reader constructor. -/
theorem Reader.new_offset_of_lt (B : List Nat) (o : Nat) (h : o < B.length) :
    (Reader.new B (o : Int)).offset = o := by
  simp only [Reader.new]
  rw [if_neg (by omega)]
  simp

/-- writeBuffer advances the writer offset by the number of copied bytes. -/
theorem foldl_writeUint8_offset (l : List Nat) :
    ∀ w : Writer, (l.foldl (fun acc b => acc.writeUint8 (Int.ofNat b)) w).offset =
      w.offset + l.length := by
  induction l with
  | nil => intro w; simp
  | cons b bs ih =>
      intro w
      simp only [List.foldl_cons, List.length_cons, ih]
      simp only [Writer.writeUint8]
      omega

/-- C9 counterexample: take the 1-byte buffer [7], the offset o = 1 = length
and the width n = 0 (a readBuffer(0) call, in bounds since o + n ≤ length):
the Reader constructor resets the out-of-range-for-it offset 1 to 0, so
after the read the cursor is 0 and not o + n = 1. -/
theorem reader_cursor_not_at_sum_at_end :
    (((Reader.new [7] 1).readBuffer 0).2.offset = 0) ∧
      ¬(((Reader.new [7] 1).readBuffer 0).2.offset = 1 + 0) := by decide

/-- C9 (amended): for in-bounds accesses the cursor ends at exactly o + n,
provided o < length(B) for the Reader — its constructor resets the offset
o = length(B) (only reachable in bounds with n = 0) to 0 — while the Writer
needs only o ≤ length(B). -/
theorem cursor_advances_by_width (B : List Nat) (o n : Nat) (v : Int)
    (buf : List Nat) :
    (o < B.length →
      (o + 1 ≤ B.length → ((Reader.new B o).readUint8).2.offset = o + 1) ∧
      (o + 2 ≤ B.length →
        ((Reader.new B o).readUint16).map (fun p => p.2.offset) = some (o + 2)) ∧
      (o + 4 ≤ B.length →
        ((Reader.new B o).readUint32).map (fun p => p.2.offset) = some (o + 4)) ∧
      (o + 8 ≤ B.length →
        ((Reader.new B o).readUint64).map (fun p => p.2.offset) = some (o + 8)) ∧
      ((Reader.new B o).readBuffer n).2.offset = o + n) ∧
    (o ≤ B.length →
      ((Writer.new B o).writeUint8 v).offset = (o : Int) + 1 ∧
      (o + 2 ≤ B.length →
        ((Writer.new B o).writeUint16 v).map (fun w => w.offset) = some ((o : Int) + 2)) ∧
      (o + 4 ≤ B.length →
        ((Writer.new B o).writeUint32 v).map (fun w => w.offset) = some ((o : Int) + 4)) ∧
      (o + 8 ≤ B.length →
        ((Writer.new B o).writeUint64 v).map (fun w => w.offset) = some ((o : Int) + 8)) ∧
      ((Writer.new B o).writeBuffer buf 0).offset = (o : Int) + buf.length) := by
  constructor
  · intro ho
    have hoff := Reader.new_offset_of_lt B o ho
    refine ⟨fun _ => ?_, fun h2 => ?_, fun h4 => ?_, fun h8 => ?_, ?_⟩
    · simp [Reader.readUint8, hoff]
    · rw [Reader.readUint16, if_pos (by rw [hoff]; exact h2)]
      simp [hoff]
    · rw [Reader.readUint32, if_pos (by rw [hoff]; exact h4)]
      simp [hoff]
    · rw [Reader.readUint64, if_pos (by rw [hoff]; exact h8)]
      simp [hoff]
    · simp [Reader.readBuffer, hoff]
  · intro ho
    refine ⟨?_, fun h2 => ?_, fun h4 => ?_, fun h8 => ?_, ?_⟩
    · simp [Writer.writeUint8, Writer.new]
    · rw [Writer.writeUint16, if_pos (by simp [Writer.new]; omega)]
      simp [Writer.new]
    · rw [Writer.writeUint32, if_pos (by simp [Writer.new]; omega)]
      simp [Writer.new]
    · rw [Writer.writeUint64, if_pos (by simp [Writer.new]; omega)]
      simp [Writer.new]
    · rw [Writer.writeBuffer, List.drop_zero, foldl_writeUint8_offset]
      simp [Writer.new]

/-- Witness for the amended C9 theorem on an 8-byte buffer at offset 0. -/
theorem cursor_advances_by_width_witness :
    ((Reader.new [0, 0, 0, 0, 0, 0, 0, 0] 0).readUint8).2.offset = 1 ∧
    ((Reader.new [0, 0, 0, 0, 0, 0, 0, 0] 0).readUint16).map (fun p => p.2.offset) = some 2 ∧
    ((Reader.new [0, 0, 0, 0, 0, 0, 0, 0] 0).readUint32).map (fun p => p.2.offset) = some 4 ∧
    ((Reader.new [0, 0, 0, 0, 0, 0, 0, 0] 0).readUint64).map (fun p => p.2.offset) = some 8 ∧
    ((Reader.new [0, 0, 0, 0, 0, 0, 0, 0] 0).readBuffer 3).2.offset = 3 ∧
    ((Writer.new [0, 0, 0, 0, 0, 0, 0, 0] 0).writeUint8 5).offset = 1 ∧
    ((Writer.new [0, 0, 0, 0, 0, 0, 0, 0] 0).writeUint16 5).map (fun w => w.offset) = some 2 ∧
    ((Writer.new [0, 0, 0, 0, 0, 0, 0, 0] 0).writeUint32 5).map (fun w => w.offset) = some 4 ∧
    ((Writer.new [0, 0, 0, 0, 0, 0, 0, 0] 0).writeUint64 5).map (fun w => w.offset) = some 8 ∧
    ((Writer.new [0, 0, 0, 0, 0, 0, 0, 0] 0).writeBuffer [1, 2] 0).offset = 2 := by
  have h := cursor_advances_by_width [0, 0, 0, 0, 0, 0, 0, 0] 0 3 5 [1, 2]
  have hr := h.1 (by decide)
  have hw := h.2 (by decide)
  exact ⟨hr.1 (by decide), hr.2.1 (by decide), hr.2.2.1 (by decide), hr.2.2.2.1 (by decide),
    hr.2.2.2.2, hw.1, hw.2.1 (by decide), hw.2.2.1 (by decide), hw.2.2.2.1 (by decide),
    hw.2.2.2.2⟩

/-- Taking one past an in-range set position splits off the new element. -/
theorem take_succ_set {α : Type} : ∀ (l : List α) (o : Nat) (x : α),
    o < l.length → (l.set o x).take (o + 1) = l.take o ++ [x]
  | [], o, x, h => by simp at h
  | a :: l, 0, x, _ => by simp
  | a :: l, o + 1, x, h => by
      rw [List.set_cons_succ, List.take_succ_cons,
        take_succ_set l o x (by simpa using h), List.take_succ_cons]
      simp

/-- setBytes preserves the buffer length. -/
theorem setBytes_length : ∀ (bs l : List Nat) (o : Nat),
    (setBytes l o bs).length = l.length
  | [], l, o => rfl
  | b :: bs, l, o => by
      rw [setBytes, setBytes_length bs (l.set o b) (o + 1), List.length_set]

/-- An in-bounds setBytes replaces the byte region and keeps both sides. -/
theorem setBytes_eq : ∀ (bs l : List Nat) (o : Nat), o + bs.length ≤ l.length →
    setBytes l o bs = l.take o ++ bs ++ l.drop (o + bs.length)
  | [], l, o, h => by simp [setBytes]
  | b :: bs, l, o, h => by
      rw [setBytes,
        setBytes_eq bs (l.set o b) (o + 1)
          (by rw [List.length_set]; simp at h; omega),
        take_succ_set l o b (by simp at h; omega),
        List.drop_set_of_lt b l (by omega)]
      have harith : o + 1 + bs.length = o + (b :: bs).length := by simp; omega
      rw [harith]
      simp

/-- Reading inside the middle block of a three-part append. -/
theorem getD_middle {α : Type} (A mid rest : List α) (i : Nat) (d : α)
    (h : i < mid.length) :
    (A ++ mid ++ rest).getD (A.length + i) d = mid.getD i d := by
  rw [List.append_assoc]
  simp only [List.getD_eq_getElem?_getD, List.getElem?_append]
  rw [if_neg (by omega), if_pos (by omega)]
  simp only [Nat.add_sub_cancel_left]

/-- Reading position o + i of an in-bounds written region yields byte i of
the region. -/
theorem read_bytes_region (B : List Nat) (o : Nat) (bs : List Nat) (i : Nat)
    (h : o + bs.length ≤ B.length) (hi : i < bs.length) :
    (setBytes B o bs).getD (o + i) 0 = bs.getD i 0 := by
  rw [setBytes_eq bs B o h]
  have hA : (B.take o).length = o := by rw [List.length_take]; omega
  have hmid := getD_middle (B.take o) bs (B.drop (o + bs.length)) i 0 hi
  rw [hA] at hmid
  exact hmid

/-- The size stored by the Reader constructor is the buffer length. -/
theorem Reader.new_size (buffer : List Nat) (offset : Int) :
    (Reader.new buffer offset).size = buffer.length := rfl

/-- The buffer stored by the Reader constructor is the given buffer. -/
theorem Reader.new_buffer (buffer : List Nat) (offset : Int) :
    (Reader.new buffer offset).buffer = buffer := rfl

/-- C6: writing an unsigned value of width K at an in-bounds offset o and
reading back with the matching readUintK at the same offset o returns the
value, for K in 8, 16, 32 and 64 bits and all representable values. -/
theorem write_read_roundtrip (B : List Nat) (o v : Nat) :
    (o + 1 ≤ B.length → v < 256 →
      ((Reader.new ((Writer.new B o).writeUint8 (v : Int)).buffer o).readUint8).1 =
        some v) ∧
    (o + 2 ≤ B.length → v < 65536 →
      ((Writer.new B o).writeUint16 (v : Int)).bind
        (fun w => ((Reader.new w.buffer o).readUint16).map (fun p => p.1)) = some v) ∧
    (o + 4 ≤ B.length → v < 4294967296 →
      ((Writer.new B o).writeUint32 (v : Int)).bind
        (fun w => ((Reader.new w.buffer o).readUint32).map (fun p => p.1)) = some v) ∧
    (o + 8 ≤ B.length → v < 18446744073709551616 →
      ((Writer.new B o).writeUint64 (v : Int)).bind
        (fun w => ((Reader.new w.buffer o).readUint64).map (fun p => p.1)) = some v) := by
  have hoff : ∀ bb : List Nat, bb.length = B.length → o < B.length →
      (Reader.new bb (o : Int)).offset = o := by
    intro bb hbb ho
    exact Reader.new_offset_of_lt bb o (by omega)
  refine ⟨fun h1 hv => ?_, fun h2 hv => ?_, fun h4 hv => ?_, fun h8 hv => ?_⟩
  · -- 8-bit round-trip: a plain typed-array store and load at index o
    have hbuf : ((Writer.new B (o : Int)).writeUint8 (v : Int)).buffer = B.set o v := by
      simp only [Writer.writeUint8, Writer.new]
      rw [if_pos (by omega)]
      have hval : (((v : Int)) % 256).toNat = v := by omega
      simp [hval]
    rw [hbuf]
    have ho8 : (Reader.new (B.set o v) (o : Int)).offset = o :=
      hoff _ (by rw [List.length_set]) (by omega)
    simp only [Reader.readUint8, ho8]
    exact List.getElem?_set_self (by omega)
  · -- 16-bit round-trip through the little-endian DataView store and load
    have hu : (((v : Int)) % 65536).toNat = v := by omega
    simp only [Writer.writeUint16, Writer.new]
    rw [if_pos (by constructor <;> omega)]
    simp only [Option.some_bind, Int.toNat_natCast, hu]
    have hlen : (setBytes B o [v % 256, v / 256 % 256]).length = B.length :=
      setBytes_length _ B o
    have hro := hoff _ hlen (by omega)
    rw [Reader.readUint16, if_pos (by rw [hro, Reader.new_size, hlen]; exact h2)]
    simp only [Option.map_some', hro, Reader.new_buffer]
    have hfit : o + ([v % 256, v / 256 % 256] : List Nat).length ≤ B.length := by
      simp; omega
    have hb0 : (setBytes B o [v % 256, v / 256 % 256]).getD o 0 = v % 256 := by
      simpa using read_bytes_region B o [v % 256, v / 256 % 256] 0 hfit (by simp)
    have hb1 : (setBytes B o [v % 256, v / 256 % 256]).getD (o + 1) 0 = v / 256 % 256 := by
      simpa using read_bytes_region B o [v % 256, v / 256 % 256] 1 hfit (by simp)
    rw [hb0, hb1]
    congr 1
    omega
  · -- 32-bit round-trip
    have hu : (((v : Int)) % 4294967296).toNat = v := by omega
    simp only [Writer.writeUint32, Writer.new]
    rw [if_pos (by constructor <;> omega)]
    simp only [Option.some_bind, Int.toNat_natCast, hu]
    have hlen : (setBytes B o
        [v % 256, v / 256 % 256, v / 256 ^ 2 % 256, v / 256 ^ 3 % 256]).length =
        B.length := setBytes_length _ B o
    have hro := hoff _ hlen (by omega)
    rw [Reader.readUint32, if_pos (by rw [hro, Reader.new_size, hlen]; exact h4)]
    simp only [Option.map_some', hro, Reader.new_buffer]
    have hfit : o + ([v % 256, v / 256 % 256, v / 256 ^ 2 % 256,
        v / 256 ^ 3 % 256] : List Nat).length ≤ B.length := by
      simp; omega
    have hb0 : (setBytes B o [v % 256, v / 256 % 256, v / 256 ^ 2 % 256,
        v / 256 ^ 3 % 256]).getD o 0 = v % 256 := by
      simpa using read_bytes_region B o _ 0 hfit (by simp)
    have hb1 : (setBytes B o [v % 256, v / 256 % 256, v / 256 ^ 2 % 256,
        v / 256 ^ 3 % 256]).getD (o + 1) 0 = v / 256 % 256 := by
      simpa using read_bytes_region B o _ 1 hfit (by simp)
    have hb2 : (setBytes B o [v % 256, v / 256 % 256, v / 256 ^ 2 % 256,
        v / 256 ^ 3 % 256]).getD (o + 2) 0 = v / 256 ^ 2 % 256 := by
      simpa using read_bytes_region B o _ 2 hfit (by simp)
    have hb3 : (setBytes B o [v % 256, v / 256 % 256, v / 256 ^ 2 % 256,
        v / 256 ^ 3 % 256]).getD (o + 3) 0 = v / 256 ^ 3 % 256 := by
      simpa using read_bytes_region B o _ 3 hfit (by simp)
    rw [hb0, hb1, hb2, hb3]
    congr 1
    omega
  · -- 64-bit round-trip
    have hu : (((v : Int)) % 18446744073709551616).toNat = v := by omega
    simp only [Writer.writeUint64, Writer.new]
    rw [if_pos (by constructor <;> omega)]
    simp only [Option.some_bind, Int.toNat_natCast, hu]
    have hlen : (setBytes B o
        [v % 256, v / 256 % 256, v / 256 ^ 2 % 256, v / 256 ^ 3 % 256,
         v / 256 ^ 4 % 256, v / 256 ^ 5 % 256, v / 256 ^ 6 % 256,
         v / 256 ^ 7 % 256]).length = B.length := setBytes_length _ B o
    have hro := hoff _ hlen (by omega)
    rw [Reader.readUint64, if_pos (by rw [hro, Reader.new_size, hlen]; exact h8)]
    simp only [Option.map_some', hro, Reader.new_buffer]
    have hfit : o + ([v % 256, v / 256 % 256, v / 256 ^ 2 % 256, v / 256 ^ 3 % 256,
        v / 256 ^ 4 % 256, v / 256 ^ 5 % 256, v / 256 ^ 6 % 256,
        v / 256 ^ 7 % 256] : List Nat).length ≤ B.length := by
      simp; omega
    have hread : ∀ i, i < 8 → (setBytes B o
        [v % 256, v / 256 % 256, v / 256 ^ 2 % 256, v / 256 ^ 3 % 256,
         v / 256 ^ 4 % 256, v / 256 ^ 5 % 256, v / 256 ^ 6 % 256,
         v / 256 ^ 7 % 256]).getD (o + i) 0 =
        ([v % 256, v / 256 % 256, v / 256 ^ 2 % 256, v / 256 ^ 3 % 256,
          v / 256 ^ 4 % 256, v / 256 ^ 5 % 256, v / 256 ^ 6 % 256,
          v / 256 ^ 7 % 256] : List Nat).getD i 0 := by
      intro i hi
      exact read_bytes_region B o _ i hfit (by simpa using hi)
    have hb0 : (setBytes B o [v % 256, v / 256 % 256, v / 256 ^ 2 % 256,
        v / 256 ^ 3 % 256, v / 256 ^ 4 % 256, v / 256 ^ 5 % 256, v / 256 ^ 6 % 256,
        v / 256 ^ 7 % 256]).getD o 0 = v % 256 := by
      simpa using hread 0 (by omega)
    rw [hb0, hread 1 (by omega), hread 2 (by omega), hread 3 (by omega),
      hread 4 (by omega), hread 5 (by omega), hread 6 (by omega), hread 7 (by omega)]
    simp only [List.getD_cons_succ, List.getD_cons_zero]
    congr 1
    omega

/-- Witness for C6 on an 8-byte buffer at offset 0 with value 5. -/
theorem write_read_roundtrip_witness :
    ((Reader.new ((Writer.new [0, 0, 0, 0, 0, 0, 0, 0] 0).writeUint8 5).buffer 0).readUint8).1 =
      some 5 ∧
    ((Writer.new [0, 0, 0, 0, 0, 0, 0, 0] 0).writeUint16 5).bind
      (fun w => ((Reader.new w.buffer 0).readUint16).map (fun p => p.1)) = some 5 ∧
    ((Writer.new [0, 0, 0, 0, 0, 0, 0, 0] 0).writeUint32 5).bind
      (fun w => ((Reader.new w.buffer 0).readUint32).map (fun p => p.1)) = some 5 ∧
    ((Writer.new [0, 0, 0, 0, 0, 0, 0, 0] 0).writeUint64 5).bind
      (fun w => ((Reader.new w.buffer 0).readUint64).map (fun p => p.1)) = some 5 := by
  have h := write_read_roundtrip [0, 0, 0, 0, 0, 0, 0, 0] 0 5
  exact ⟨h.1 (by decide) (by decide), h.2.1 (by decide) (by decide),
    h.2.2.1 (by decide) (by decide), h.2.2.2 (by decide) (by decide)⟩

/-- The field kinds of a TemplateField (src/types/TemplateField.ts). -/
inductive FieldType where
  | buffer
  | uint8
  | uint16
  | uint32
  | uint64
deriving Repr, DecidableEq

/-- A template field: a kind tag and the field's raw bytes (a Uint8Array
owning its storage in the source). -/
structure TemplateField where
  type : FieldType
  data : List Nat
deriving Repr, DecidableEq

/-- Template.byteLength as computed by the constructor: the data byte
lengths of all fields mapped and reduced with addition from 0. -/
def Template.byteLength (fields : List TemplateField) : Nat :=
  (fields.map (fun f => f.data.length)).foldl (fun prev cur => prev + cur) 0

/-- DataView.getInt8(0) on a field's bytes: the first byte as a signed
8-bit integer; none models the RangeError on an empty view. -/
def getInt8 (data : List Nat) : Option Int :=
  if 1 ≤ data.length then
    some (if data.getD 0 0 < 128 then (data.getD 0 0 : Int) else (data.getD 0 0 : Int) - 256)
  else none

/-- DataView.getInt16(0) with no endianness flag: big-endian signed 16-bit
read of the first two bytes; none models the RangeError when the view is
too short. -/
def getInt16 (data : List Nat) : Option Int :=
  if 2 ≤ data.length then
    some
      (if 256 * data.getD 0 0 + data.getD 1 0 < 32768 then
        ((256 * data.getD 0 0 + data.getD 1 0 : Nat) : Int)
      else ((256 * data.getD 0 0 + data.getD 1 0 : Nat) : Int) - 65536)
  else none

/-- DataView.getInt32(0): big-endian signed 32-bit read of the first four
bytes. -/
def getInt32 (data : List Nat) : Option Int :=
  if 4 ≤ data.length then
    some
      (if 256 ^ 3 * data.getD 0 0 + 256 ^ 2 * data.getD 1 0 +
            256 * data.getD 2 0 + data.getD 3 0 < 2147483648 then
        ((256 ^ 3 * data.getD 0 0 + 256 ^ 2 * data.getD 1 0 +
            256 * data.getD 2 0 + data.getD 3 0 : Nat) : Int)
      else
        ((256 ^ 3 * data.getD 0 0 + 256 ^ 2 * data.getD 1 0 +
            256 * data.getD 2 0 + data.getD 3 0 : Nat) : Int) - 4294967296)
  else none

/-- DataView.getBigInt64(0): big-endian signed 64-bit read of the first
eight bytes. -/
def getBigInt64 (data : List Nat) : Option Int :=
  if 8 ≤ data.length then
    some
      (if 256 ^ 7 * data.getD 0 0 + 256 ^ 6 * data.getD 1 0 +
            256 ^ 5 * data.getD 2 0 + 256 ^ 4 * data.getD 3 0 +
            256 ^ 3 * data.getD 4 0 + 256 ^ 2 * data.getD 5 0 +
            256 * data.getD 6 0 + data.getD 7 0 < 9223372036854775808 then
        ((256 ^ 7 * data.getD 0 0 + 256 ^ 6 * data.getD 1 0 +
            256 ^ 5 * data.getD 2 0 + 256 ^ 4 * data.getD 3 0 +
            256 ^ 3 * data.getD 4 0 + 256 ^ 2 * data.getD 5 0 +
            256 * data.getD 6 0 + data.getD 7 0 : Nat) : Int)
      else
        ((256 ^ 7 * data.getD 0 0 + 256 ^ 6 * data.getD 1 0 +
            256 ^ 5 * data.getD 2 0 + 256 ^ 4 * data.getD 3 0 +
            256 ^ 3 * data.getD 4 0 + 256 ^ 2 * data.getD 5 0 +
            256 * data.getD 6 0 + data.getD 7 0 : Nat) : Int) - 18446744073709551616)
  else none

/-- The body of the per-field switch of Template.toBuffer: buffer fields go
through writeBuffer verbatim; integer fields are read from the field's own
DataView with the (big-endian, signed) default getters and re-emitted through
the Writer's little-endian stores. none models a thrown RangeError. -/
def writeField (w : Writer) (field : TemplateField) : Option Writer :=
  match field.type with
  | FieldType.buffer => some (w.writeBuffer field.data 0)
  | FieldType.uint8 => (getInt8 field.data).map (fun v => w.writeUint8 v)
  | FieldType.uint16 => (getInt16 field.data).bind (fun v => w.writeUint16 v)
  | FieldType.uint32 => (getInt32 field.data).bind (fun v => w.writeUint32 v)
  | FieldType.uint64 => (getBigInt64 field.data).bind (fun v => w.writeUint64 v)

/-- Template.toBuffer: allocate a byteLength-sized buffer (allocUnsafe;
modelled zero-filled, only its length matters), wrap a Writer over it at
offset 0, and write field after field. -/
def Template.toBuffer (fields : List TemplateField) : Option (List Nat) :=
  (fields.foldlM writeField
      (Writer.new (List.replicate (Template.byteLength fields) 0) 0)).map
    (fun w => w.buffer)

/-- A single byte store never changes the buffer length. -/
theorem writeUint8_buffer_length (w : Writer) (v : Int) :
    (w.writeUint8 v).buffer.length = w.buffer.length := by
  by_cases h : 0 ≤ w.offset <;> simp [Writer.writeUint8, h]

/-- writeBuffer never changes the destination buffer length. -/
theorem foldl_writeUint8_buffer_length (l : List Nat) :
    ∀ w : Writer, (l.foldl (fun acc b => acc.writeUint8 (Int.ofNat b)) w).buffer.length =
      w.buffer.length := by
  induction l with
  | nil => intro w; rfl
  | cons b bs ih =>
      intro w
      rw [List.foldl_cons, ih, writeUint8_buffer_length]

/-- A successful writeField never changes the buffer length. -/
theorem writeField_buffer_length (w w2 : Writer) (field : TemplateField)
    (h : writeField w field = some w2) : w2.buffer.length = w.buffer.length := by
  rcases field with ⟨ty, data⟩
  cases ty
  case buffer =>
      simp only [writeField] at h
      cases h
      exact foldl_writeUint8_buffer_length _ w
  case uint8 =>
      simp only [writeField, getInt8] at h
      by_cases hd : 1 ≤ data.length
      · rw [if_pos hd] at h
        simp only [Option.map_some'] at h
        cases h
        exact writeUint8_buffer_length w _
      · rw [if_neg hd] at h
        simp at h
  case uint16 =>
      simp only [writeField, getInt16] at h
      by_cases hd : 2 ≤ data.length
      · rw [if_pos hd] at h
        simp only [Option.some_bind, Writer.writeUint16] at h
        by_cases hg : 0 ≤ w.offset ∧ w.offset + 2 ≤ (w.size : Int)
        · rw [if_pos hg] at h
          cases h
          exact setBytes_length _ _ _
        · rw [if_neg hg] at h
          simp at h
      · rw [if_neg hd] at h
        simp at h
  case uint32 =>
      simp only [writeField, getInt32] at h
      by_cases hd : 4 ≤ data.length
      · rw [if_pos hd] at h
        simp only [Option.some_bind, Writer.writeUint32] at h
        by_cases hg : 0 ≤ w.offset ∧ w.offset + 4 ≤ (w.size : Int)
        · rw [if_pos hg] at h
          cases h
          exact setBytes_length _ _ _
        · rw [if_neg hg] at h
          simp at h
      · rw [if_neg hd] at h
        simp at h
  case uint64 =>
      simp only [writeField, getBigInt64] at h
      by_cases hd : 8 ≤ data.length
      · rw [if_pos hd] at h
        simp only [Option.some_bind, Writer.writeUint64] at h
        by_cases hg : 0 ≤ w.offset ∧ w.offset + 8 ≤ (w.size : Int)
        · rw [if_pos hg] at h
          cases h
          exact setBytes_length _ _ _
        · rw [if_neg hg] at h
          simp at h
      · rw [if_neg hd] at h
        simp at h

/-- Folding writeField over the fields never changes the buffer length. -/
theorem foldlM_writeField_length :
    ∀ (fields : List TemplateField) (w w2 : Writer),
      List.foldlM writeField w fields = some w2 → w2.buffer.length = w.buffer.length
  | [], w, w2, h => by
      simp only [List.foldlM_nil, Option.pure_def, Option.some_inj] at h
      rw [← h]
  | f :: fs, w, w2, h => by
      rw [List.foldlM_cons] at h
      rcases hf : writeField w f with _ | w1
      · rw [hf] at h; simp at h
      · rw [hf] at h
        simp only [Option.bind_eq_bind, Option.some_bind] at h
        rw [foldlM_writeField_length fs w1 w2 h]
        exact writeField_buffer_length w w1 f hf

/-- C2 counterexample: a single uint8 field whose data holds 2 bytes gives
byteLength 2, not the declared width 1 the claim requires. -/
theorem byteLength_not_declared_width :
    Template.byteLength [⟨FieldType.uint8, [0, 0]⟩] = 2 ∧
      Template.byteLength [⟨FieldType.uint8, [0, 0]⟩] ≠ 1 := by decide

/-- C2 (amended): byteLength sums the full data byte length of every field,
whatever its declared kind (not the declared 1/2/4/8 widths for integer
kinds), and whenever toBuffer()/render() returns a buffer it has exactly
byteLength bytes. -/
theorem byteLength_sums_data_and_render_length (fields : List TemplateField)
    (b : List Nat) :
    Template.byteLength fields = (fields.map (fun f => f.data.length)).sum ∧
    (Template.toBuffer fields = some b → b.length = Template.byteLength fields) := by
  constructor
  · rw [Template.byteLength, List.sum_eq_foldl]
  · intro h
    simp only [Template.toBuffer] at h
    rcases hf : List.foldlM writeField
        (Writer.new (List.replicate (Template.byteLength fields) 0) 0) fields with _ | w
    · rw [hf] at h; simp at h
    · rw [hf] at h
      simp only [Option.map_some'] at h
      cases h
      rw [foldlM_writeField_length fields _ w hf]
      simp [Writer.new]

/-- Witness for the amended C2 theorem on a template mixing an under-declared
integer field and a raw-bytes field. -/
theorem byteLength_sums_data_and_render_length_witness :
    Template.byteLength [⟨FieldType.uint8, [0, 0]⟩, ⟨FieldType.buffer, [1, 2, 3]⟩] =
      (([⟨FieldType.uint8, [0, 0]⟩, ⟨FieldType.buffer, [1, 2, 3]⟩] : List TemplateField).map
        (fun f => f.data.length)).sum ∧
    ([0, 1, 2, 3, 0] : List Nat).length =
      Template.byteLength [⟨FieldType.uint8, [0, 0]⟩, ⟨FieldType.buffer, [1, 2, 3]⟩] := by
  have h := byteLength_sums_data_and_render_length
    [⟨FieldType.uint8, [0, 0]⟩, ⟨FieldType.buffer, [1, 2, 3]⟩] [0, 1, 2, 3, 0]
  exact ⟨h.1, h.2 (by decide)⟩

/-- C5 counterexample: a uint16 field with data bytes [1, 2] renders to
[2, 1] — the DataView default read is big-endian (not native/little-endian)
and the Writer re-emits little-endian, so the two bytes come out reversed,
not unchanged as the claim states. -/
theorem template_uint16_emits_reversed_bytes :
    Template.toBuffer [⟨FieldType.uint16, [1, 2]⟩] = some [2, 1] ∧
      ([2, 1] : List Nat) ≠ [1, 2] := by decide

set_option maxHeartbeats 1600000 in
/-- C5 (amended): for an integer-kind field whose data has at least the
declared width N, toBuffer's switch reads the first N bytes of the data
big-endian signed (the DataView getters' default, not native byte order) and
re-emits the value little-endian through the Writer; hence the N bytes
emitted at the cursor are the first N data bytes in reversed order for
uint16/uint32/uint64, and the first data byte unchanged for uint8. -/
theorem writeField_bigendian_read_littleendian_write (w : Writer) (o : Nat)
    (b0 b1 b2 b3 b4 b5 b6 b7 : Nat) (rest : List Nat)
    (hw : w.offset = (o : Int)) (hsz : w.size = w.buffer.length)
    (hb0 : b0 < 256) (hb1 : b1 < 256) (hb2 : b2 < 256) (hb3 : b3 < 256)
    (hb4 : b4 < 256) (hb5 : b5 < 256) (hb6 : b6 < 256) (hb7 : b7 < 256) :
    (o + 1 ≤ w.buffer.length →
      writeField w ⟨FieldType.uint8, b0 :: rest⟩ =
        some ⟨w.buffer.take o ++ [b0] ++ w.buffer.drop (o + 1), w.size, (o : Int) + 1⟩) ∧
    (o + 2 ≤ w.buffer.length →
      writeField w ⟨FieldType.uint16, b0 :: b1 :: rest⟩ =
        some ⟨w.buffer.take o ++ [b1, b0] ++ w.buffer.drop (o + 2), w.size, (o : Int) + 2⟩) ∧
    (o + 4 ≤ w.buffer.length →
      writeField w ⟨FieldType.uint32, b0 :: b1 :: b2 :: b3 :: rest⟩ =
        some ⟨w.buffer.take o ++ [b3, b2, b1, b0] ++ w.buffer.drop (o + 4), w.size,
          (o : Int) + 4⟩) ∧
    (o + 8 ≤ w.buffer.length →
      writeField w ⟨FieldType.uint64, b0 :: b1 :: b2 :: b3 :: b4 :: b5 :: b6 :: b7 :: rest⟩ =
        some ⟨w.buffer.take o ++ [b7, b6, b5, b4, b3, b2, b1, b0] ++ w.buffer.drop (o + 8),
          w.size, (o : Int) + 8⟩) := by
  refine ⟨fun h1 => ?_, fun h2 => ?_, fun h4 => ?_, fun h8 => ?_⟩
  · -- uint8: signed read of the first byte, re-emitted modulo 256 unchanged
    simp only [writeField, getInt8, List.getD_cons_zero, List.length_cons]
    have hd : (1 : Nat) ≤ rest.length + 1 := by omega
    rw [if_pos hd]
    simp only [Option.map_some', Writer.writeUint8, hw]
    have hnn : (0 : Int) ≤ (o : Int) := by omega
    rw [if_pos hnn]
    have hval : ((if b0 < 128 then ((b0 : Nat) : Int) else ((b0 : Nat) : Int) - 256) %
        256).toNat = b0 := by
      split <;> omega
    rw [hval]
    simp only [Int.toNat_natCast]
    rw [show w.buffer.set o b0 = setBytes w.buffer o [b0] from rfl,
      setBytes_eq [b0] w.buffer o (by simp only [List.length_cons, List.length_nil]; omega)]
    simp
  · -- uint16: big-endian signed read, little-endian re-emit: bytes reversed
    simp only [writeField, getInt16, List.getD_cons_zero, List.getD_cons_succ,
      List.length_cons]
    have hd : (2 : Nat) ≤ rest.length + 1 + 1 := by omega
    rw [if_pos hd]
    simp only [Option.some_bind, Writer.writeUint16]
    have hguard : 0 ≤ w.offset ∧ w.offset + 2 ≤ (w.size : Int) := by
      constructor <;> omega
    rw [if_pos hguard]
    have hval : ((if 256 * b0 + b1 < 32768 then ((256 * b0 + b1 : Nat) : Int)
        else ((256 * b0 + b1 : Nat) : Int) - 65536) % 65536).toNat = 256 * b0 + b1 := by
      split <;> omega
    rw [hval, hw]
    simp only [Int.toNat_natCast]
    have e0 : (256 * b0 + b1) % 256 = b1 := by omega
    have e1 : (256 * b0 + b1) / 256 % 256 = b0 := by omega
    rw [e0, e1, setBytes_eq [b1, b0] w.buffer o (by simp only [List.length_cons, List.length_nil]; omega)]
    simp
  · -- uint32
    simp only [writeField, getInt32, List.getD_cons_zero, List.getD_cons_succ,
      List.length_cons]
    have hd : (4 : Nat) ≤ rest.length + 1 + 1 + 1 + 1 := by omega
    rw [if_pos hd]
    simp only [Option.some_bind, Writer.writeUint32]
    have hguard : 0 ≤ w.offset ∧ w.offset + 4 ≤ (w.size : Int) := by
      constructor <;> omega
    rw [if_pos hguard]
    have hval : ((if 256 ^ 3 * b0 + 256 ^ 2 * b1 + 256 * b2 + b3 < 2147483648 then
        ((256 ^ 3 * b0 + 256 ^ 2 * b1 + 256 * b2 + b3 : Nat) : Int)
        else ((256 ^ 3 * b0 + 256 ^ 2 * b1 + 256 * b2 + b3 : Nat) : Int) - 4294967296) %
        4294967296).toNat = 256 ^ 3 * b0 + 256 ^ 2 * b1 + 256 * b2 + b3 := by
      split <;> omega
    rw [hval, hw]
    simp only [Int.toNat_natCast]
    have e0 : (256 ^ 3 * b0 + 256 ^ 2 * b1 + 256 * b2 + b3) % 256 = b3 := by omega
    have e1 : (256 ^ 3 * b0 + 256 ^ 2 * b1 + 256 * b2 + b3) / 256 % 256 = b2 := by omega
    have e2 : (256 ^ 3 * b0 + 256 ^ 2 * b1 + 256 * b2 + b3) / 256 ^ 2 % 256 = b1 := by
      omega
    have e3 : (256 ^ 3 * b0 + 256 ^ 2 * b1 + 256 * b2 + b3) / 256 ^ 3 % 256 = b0 := by
      omega
    rw [e0, e1, e2, e3,
      setBytes_eq [b3, b2, b1, b0] w.buffer o
        (by simp only [List.length_cons, List.length_nil]; omega)]
    simp
  · -- uint64
    simp only [writeField, getBigInt64, List.getD_cons_zero, List.getD_cons_succ,
      List.length_cons]
    have hd : (8 : Nat) ≤ rest.length + 1 + 1 + 1 + 1 + 1 + 1 + 1 + 1 := by omega
    rw [if_pos hd]
    simp only [Option.some_bind, Writer.writeUint64]
    have hguard : 0 ≤ w.offset ∧ w.offset + 8 ≤ (w.size : Int) := by
      constructor <;> omega
    rw [if_pos hguard]
    have hval : ((if 256 ^ 7 * b0 + 256 ^ 6 * b1 + 256 ^ 5 * b2 + 256 ^ 4 * b3 +
          256 ^ 3 * b4 + 256 ^ 2 * b5 + 256 * b6 + b7 < 9223372036854775808 then
        ((256 ^ 7 * b0 + 256 ^ 6 * b1 + 256 ^ 5 * b2 + 256 ^ 4 * b3 +
          256 ^ 3 * b4 + 256 ^ 2 * b5 + 256 * b6 + b7 : Nat) : Int)
        else ((256 ^ 7 * b0 + 256 ^ 6 * b1 + 256 ^ 5 * b2 + 256 ^ 4 * b3 +
          256 ^ 3 * b4 + 256 ^ 2 * b5 + 256 * b6 + b7 : Nat) : Int) -
          18446744073709551616) % 18446744073709551616).toNat =
        256 ^ 7 * b0 + 256 ^ 6 * b1 + 256 ^ 5 * b2 + 256 ^ 4 * b3 +
          256 ^ 3 * b4 + 256 ^ 2 * b5 + 256 * b6 + b7 := by
      split <;> omega
    rw [hval, hw]
    simp only [Int.toNat_natCast]
    have e0 : (256 ^ 7 * b0 + 256 ^ 6 * b1 + 256 ^ 5 * b2 + 256 ^ 4 * b3 +
        256 ^ 3 * b4 + 256 ^ 2 * b5 + 256 * b6 + b7) % 256 = b7 := by omega
    have e1 : (256 ^ 7 * b0 + 256 ^ 6 * b1 + 256 ^ 5 * b2 + 256 ^ 4 * b3 +
        256 ^ 3 * b4 + 256 ^ 2 * b5 + 256 * b6 + b7) / 256 % 256 = b6 := by omega
    have e2 : (256 ^ 7 * b0 + 256 ^ 6 * b1 + 256 ^ 5 * b2 + 256 ^ 4 * b3 +
        256 ^ 3 * b4 + 256 ^ 2 * b5 + 256 * b6 + b7) / 256 ^ 2 % 256 = b5 := by omega
    have e3 : (256 ^ 7 * b0 + 256 ^ 6 * b1 + 256 ^ 5 * b2 + 256 ^ 4 * b3 +
        256 ^ 3 * b4 + 256 ^ 2 * b5 + 256 * b6 + b7) / 256 ^ 3 % 256 = b4 := by omega
    have e4 : (256 ^ 7 * b0 + 256 ^ 6 * b1 + 256 ^ 5 * b2 + 256 ^ 4 * b3 +
        256 ^ 3 * b4 + 256 ^ 2 * b5 + 256 * b6 + b7) / 256 ^ 4 % 256 = b3 := by omega
    have e5 : (256 ^ 7 * b0 + 256 ^ 6 * b1 + 256 ^ 5 * b2 + 256 ^ 4 * b3 +
        256 ^ 3 * b4 + 256 ^ 2 * b5 + 256 * b6 + b7) / 256 ^ 5 % 256 = b2 := by omega
    have e6 : (256 ^ 7 * b0 + 256 ^ 6 * b1 + 256 ^ 5 * b2 + 256 ^ 4 * b3 +
        256 ^ 3 * b4 + 256 ^ 2 * b5 + 256 * b6 + b7) / 256 ^ 6 % 256 = b1 := by omega
    have e7 : (256 ^ 7 * b0 + 256 ^ 6 * b1 + 256 ^ 5 * b2 + 256 ^ 4 * b3 +
        256 ^ 3 * b4 + 256 ^ 2 * b5 + 256 * b6 + b7) / 256 ^ 7 % 256 = b0 := by omega
    rw [e0, e1, e2, e3, e4, e5, e6, e7,
      setBytes_eq [b7, b6, b5, b4, b3, b2, b1, b0] w.buffer o
        (by simp only [List.length_cons, List.length_nil]; omega)]
    simp

/-- Witness for the amended C5 theorem on an 8-byte buffer of 9s at offset 0
with data bytes 1..8. -/
theorem writeField_bigendian_read_littleendian_write_witness :
    writeField (Writer.new [9, 9, 9, 9, 9, 9, 9, 9] 0) ⟨FieldType.uint8, [1]⟩ =
      some ⟨[1, 9, 9, 9, 9, 9, 9, 9], 8, 1⟩ ∧
    writeField (Writer.new [9, 9, 9, 9, 9, 9, 9, 9] 0) ⟨FieldType.uint16, [1, 2]⟩ =
      some ⟨[2, 1, 9, 9, 9, 9, 9, 9], 8, 2⟩ ∧
    writeField (Writer.new [9, 9, 9, 9, 9, 9, 9, 9] 0) ⟨FieldType.uint32, [1, 2, 3, 4]⟩ =
      some ⟨[4, 3, 2, 1, 9, 9, 9, 9], 8, 4⟩ ∧
    writeField (Writer.new [9, 9, 9, 9, 9, 9, 9, 9] 0)
        ⟨FieldType.uint64, [1, 2, 3, 4, 5, 6, 7, 8]⟩ =
      some ⟨[8, 7, 6, 5, 4, 3, 2, 1], 8, 8⟩ := by
  have h := writeField_bigendian_read_littleendian_write
    (Writer.new [9, 9, 9, 9, 9, 9, 9, 9] 0) 0 1 2 3 4 5 6 7 8 []
    (by decide) (by decide) (by decide) (by decide) (by decide) (by decide)
    (by decide) (by decide) (by decide) (by decide)
  exact ⟨(h.1 (by decide)).trans (by decide), (h.2.1 (by decide)).trans (by decide),
    (h.2.2.1 (by decide)).trans (by decide), (h.2.2.2 (by decide)).trans (by decide)⟩

end BlockchainAZ
